import Mathlib

/-!
Verification development for the utility module of the eide repository
(src/src/utility.ts). The development shallowly embeds the `FileCache`
class, the `genGithubHash` helper and the `compareVersion` /
`isVersionString` helpers, and proves the specified properties about them.

External collaborators (Node builtins and the host filesystem) are
modelled explicitly:
 - the filesystem is an association list from paths to file contents;
 - `JSON.stringify` / `JSON.parse`, used by `FileCache` only on its own
   `CacheDocument` shape, are modelled by an executable codec
   (`stringifyCache` / `parseCache`) producing exactly the JSON text shape
   the source writes, with a proved round-trip;
 - the SHA-1 primitive of the `crypto` module is an abstract parameter
   (`sha1hex`), since the cache/hash code of the repository only builds its
   input buffer and defers the digest to the external library.
-/

namespace Eide

/-! ### Filesystem model -/

/-- A filesystem is a finite map from absolute paths to file contents,
modelling the `File` collaborator (`IsFile`, `Read`, `Write`). -/
abbrev FS := List (String × String)

/-- Model of reading a file: the content stored at path `p`, if any. -/
def fsLookup (fs : FS) (p : String) : Option String :=
  (fs.find? (fun kv => kv.1 == p)).map (fun kv => kv.2)

/-- Model of `File.IsFile`: the path has some content on disk. -/
def fsIsFile (fs : FS) (p : String) : Bool :=
  (fsLookup fs p).isSome

/-- Model of `File.Write`: overwrite (or create) the file at path `p`. -/
def fsWrite (fs : FS) (p c : String) : FS :=
  (p, c) :: fs.filter (fun kv => kv.1 != p)

/-- Model of `File.fromArray([root, name]).path`: path concatenation. -/
def joinPath (root name : String) : String :=
  root ++ "/" ++ name

/-! ### The cache document (interface `FileCacheInfo` of the source) -/

/-- One element of the `files` array of `cache.json`. -/
structure CacheEntry where
  name : String
  sha : String
  deriving DecidableEq

/-- The in-memory cache document (`FileCacheInfo` in the source). -/
structure FileCacheInfo where
  version : String
  files : List CacheEntry
  deriving DecidableEq

/-! ### JSON codec for the cache document

Model of `JSON.stringify` / `JSON.parse` restricted to the `FileCacheInfo`
shape (the only values the cache ever serializes). The encoder produces the
exact text `JSON.stringify` produces for such a document (strings are
quoted, with `"` and backslash escaped; control characters inside names and
hashes are not further escaped by this model). The decoder accepts exactly
the image of the encoder; every other string is "invalid JSON" for the
purposes of the construction contract. -/

/-- Characters escaped inside a JSON string literal. -/
def isEsc (c : Char) : Bool := c = '"' || c = '\\'

/-- Escape the body of a JSON string literal. -/
def escStr : List Char → List Char
  | [] => []
  | c :: cs => if isEsc c then '\\' :: c :: escStr cs else c :: escStr cs

/-- Encode a string as a JSON string literal (with the closing quote). -/
def encString (s : String) : List Char :=
  '"' :: (escStr s.toList ++ ['"'])

/-- Characters of a string literal (used for the fixed JSON punctuation). -/
def lit (s : String) : List Char := s.toList

/-- Decode the body of a JSON string literal, consuming the closing quote;
returns the decoded characters and the rest of the input. -/
def decStrBody : List Char → Option (List Char × List Char)
  | [] => none
  | c :: rest =>
    if c = '"' then some ([], rest)
    else if c = '\\' then
      match rest with
      | [] => none
      | c2 :: rest2 => (decStrBody rest2).map (fun p => (c2 :: p.1, p.2))
    else (decStrBody rest).map (fun p => (c :: p.1, p.2))

/-- Decode a JSON string literal (expecting the opening quote). -/
def decString (cs : List Char) : Option (List Char × List Char) :=
  match cs with
  | [] => none
  | c :: rest => if c = '"' then decStrBody rest else none

/-- Consume an expected literal character sequence. -/
def expectLit : List Char → List Char → Option (List Char)
  | [], cs => some cs
  | _ :: _, [] => none
  | a :: l, c :: cs => if a = c then expectLit l cs else none

/-- Encode one entry of the `files` array. -/
def encEntry (e : CacheEntry) : List Char :=
  lit "\x7b\"name\":" ++ encString e.name ++ lit ",\"sha\":" ++ encString e.sha ++ lit "\x7d"

/-- Encode the `files` array body (comma-separated entries). -/
def encEntries : List CacheEntry → List Char
  | [] => []
  | [e] => encEntry e
  | e :: e2 :: es => encEntry e ++ ',' :: encEntries (e2 :: es)

/-- Model of `JSON.stringify(this.cache)` for a cache document. -/
def stringifyCache (d : FileCacheInfo) : String :=
  String.mk (lit "\x7b\"version\":" ++ encString d.version ++ lit ",\"files\":[" ++
    encEntries d.files ++ lit "]\x7d")

/-- Decode one entry of the `files` array. -/
def decEntry (cs : List Char) : Option (CacheEntry × List Char) :=
  match expectLit (lit "\x7b\"name\":") cs with
  | none => none
  | some cs1 =>
    match decString cs1 with
    | none => none
    | some (n, cs2) =>
      match expectLit (lit ",\"sha\":") cs2 with
      | none => none
      | some cs3 =>
        match decString cs3 with
        | none => none
        | some (s, cs4) =>
          match expectLit (lit "\x7d") cs4 with
          | none => none
          | some cs5 => some (⟨String.mk n, String.mk s⟩, cs5)

/-- Decode the `files` array body up to and including the closing bracket
(fuel-bounded; the fuel is always instantiated with the input length). -/
def decEntriesAux : Nat → List Char → Option (List CacheEntry × List Char)
  | 0, _ => none
  | fuel + 1, cs =>
    match decEntry cs with
    | none => (expectLit [']'] cs).map (fun rest => (([] : List CacheEntry), rest))
    | some (e, rest) =>
      match rest with
      | [] => none
      | c :: rest2 =>
        if c = ',' then (decEntriesAux fuel rest2).map (fun p => (e :: p.1, p.2))
        else if c = ']' then some ([e], rest2)
        else none

/-- Decode a whole cache document from characters. -/
def parseCacheChars (cs : List Char) : Option FileCacheInfo :=
  match expectLit (lit "\x7b\"version\":") cs with
  | none => none
  | some cs1 =>
    match decString cs1 with
    | none => none
    | some (v, cs2) =>
      match expectLit (lit ",\"files\":[") cs2 with
      | none => none
      | some cs3 =>
        match decEntriesAux (cs3.length + 1) cs3 with
        | none => none
        | some (files, cs4) =>
          match expectLit (lit "\x7d") cs4 with
          | none => none
          | some cs5 => if cs5 = [] then some ⟨String.mk v, files⟩ else none

/-- Model of `JSON.parse` applied to the cache file contents: succeeds
exactly on well-formed cache documents. -/
def parseCache (s : String) : Option FileCacheInfo :=
  parseCacheChars s.toList

/-! ### The `FileCache` class -/

/-- The state of a `FileCache` instance: the root folder, the derived
cache-file path and the in-memory cache document. -/
structure FileCache where
  folder : String
  cacheFile : String
  cache : FileCacheInfo
  deriving DecidableEq

/-- Model of `Array.prototype.findIndex`: the index of the first element
satisfying `p` (`none` for JavaScript's `-1`). -/
def findIdxO {α : Type} (p : α → Bool) : List α → Option Nat
  | [] => none
  | a :: l => if p a then some 0 else (findIdxO p l).map (fun i => i + 1)

/-- Model of the in-place assignment `this.cache.files[idx].sha = sha`. -/
def setShaAt : List CacheEntry → Nat → String → List CacheEntry
  | [], _, _ => []
  | e :: es, 0, sha => ⟨e.name, sha⟩ :: es
  | e :: es, i + 1, sha => e :: setShaAt es i sha

/-- The `FileCache` constructor: derive the cache path, and either parse the
existing `cache.json` (an unparsable file is a thrown `JSON.parse` error,
modelled as `Except.error`) or start from the fresh document. -/
def FileCache.construct (fs : FS) (rootFolder : String) : Except String FileCache :=
  let cacheFile := joinPath rootFolder "cache.json"
  match fsLookup fs cacheFile with
  | some content =>
    match parseCache content with
    | some doc => .ok ⟨rootFolder, cacheFile, doc⟩
    | none => .error "JSON parse error: unexpected token"
  | none => .ok ⟨rootFolder, cacheFile, ⟨"1.0", []⟩⟩

/-- `FileCache.add`: find the entry with this `name`; overwrite its `sha`
if found, push a new entry otherwise. Purely in-memory. -/
def FileCache.add (fc : FileCache) (name sha : String) : FileCache :=
  match findIdxO (fun inf => inf.name == name) fc.cache.files with
  | some idx => { fc with cache := { fc.cache with files := setShaAt fc.cache.files idx sha } }
  | none => { fc with cache := { fc.cache with files := fc.cache.files ++ [⟨name, sha⟩] } }

/-- `FileCache.get`: find the entry whose `name` and `sha` both match;
return the backing file's path if that file exists, `none` otherwise. -/
def FileCache.get (fs : FS) (fc : FileCache) (name sha : String) : Option String :=
  match findIdxO (fun inf => inf.name == name && inf.sha == sha) fc.cache.files with
  | none => none
  | some idx =>
    match fc.cache.files[idx]? with
    | none => none
    | some inf =>
      let f := joinPath fc.folder inf.name
      if fsIsFile fs f then some f else none

/-- `FileCache.clear`: with a truthy `name` (JavaScript: any non-empty
string) splice out the first entry with that name; with `undefined` or the
falsy empty string, drop all entries. Purely in-memory. -/
def FileCache.clear (fc : FileCache) (nameOpt : Option String) : FileCache :=
  match nameOpt with
  | some name =>
    if name ≠ "" then
      match findIdxO (fun inf => inf.name == name) fc.cache.files with
      | some idx => { fc with cache := { fc.cache with files := fc.cache.files.eraseIdx idx } }
      | none => fc
    else { fc with cache := { fc.cache with files := [] } }
  | none => { fc with cache := { fc.cache with files := [] } }

/-- `FileCache.save`: serialize the in-memory document over `cache.json`. -/
def FileCache.save (fc : FileCache) (fs : FS) : FS :=
  fsWrite fs fc.cacheFile (stringifyCache fc.cache)

/-! ### Operation sequences over a cache instance -/

/-- One call on a `FileCache` instance (the mutating operations). -/
inductive CacheOp where
  | addOp (name sha : String)
  | clearOp (nameOpt : Option String)
  | saveOp
  deriving DecidableEq

/-- Apply one call to the pair of in-memory state and filesystem. -/
def applyOp : FileCache × FS → CacheOp → FileCache × FS
  | (fc, fs), .addOp n s => (fc.add n s, fs)
  | (fc, fs), .clearOp n => (fc.clear n, fs)
  | (fc, fs), .saveOp => (fc, fc.save fs)

/-- Apply a sequence of calls left to right. -/
def applyOps (st : FileCache × FS) (ops : List CacheOp) : FileCache × FS :=
  ops.foldl applyOp st

/-! ### Recursive forms of the list manipulations

`upsertRec` and `eraseFirstRec` are the structural-recursion forms of the
findIndex-based mutations of `add` and `clear`; they are proved equal to
the source forms below and make the inductive proofs direct. -/

/-- Overwrite the `sha` of the first entry named `name`, or append. -/
def upsertRec : List CacheEntry → String → String → List CacheEntry
  | [], name, sha => [⟨name, sha⟩]
  | e :: es, name, sha =>
    if e.name = name then ⟨e.name, sha⟩ :: es else e :: upsertRec es name sha

/-- Remove the first entry named `name`, if any. -/
def eraseFirstRec : List CacheEntry → String → List CacheEntry
  | [], _ => []
  | e :: es, name => if e.name = name then es else e :: eraseFirstRec es name

/-- The logical names present in a cache instance, in order. -/
def entryNames (fc : FileCache) : List String :=
  fc.cache.files.map CacheEntry.name

/-! ### genGithubHash -/

/-- Code points of a string (all relevant characters are ASCII, where this
agrees with the UTF-8 bytes `Buffer.from` produces). -/
def strBytes (s : String) : List Nat :=
  s.toList.map Char.toNat

/-- Model of `genGithubHash` on a byte buffer: build the header
`'blob ' + length + '\0'`, concatenate with the buffer via `Buffer.concat`
with an explicit total length, and digest with the external SHA-1
primitive `sha1hex` (the `crypto` collaborator). -/
def genGithubHash (sha1hex : List Nat → String) (f : List Nat) : String :=
  let header := strBytes ("blob " ++ toString f.length) ++ [0]
  let buf := (header ++ f).take (header.length + f.length)
  sha1hex buf

/-- The git blob-hash preimage of a buffer, as the specification words it:
the bytes of `blob <decimal length>`, a NUL byte, then the buffer. -/
def gitBlobPreimage (f : List Nat) : List Nat :=
  strBytes ("blob " ++ toString f.length) ++ 0 :: f

/-! ### compareVersion and isVersionString -/

/-- JavaScript whitespace as used consistently by `\s`, `trim` and
`parseInt` in this model (the exotic Unicode space separators are elided
uniformly from all three). -/
def isJsWs (c : Char) : Bool :=
  c.toNat == 9 || c.toNat == 10 || c.toNat == 11 || c.toNat == 12 || c.toNat == 13 ||
  c.toNat == 32 || c.toNat == 160 || c.toNat == 0x2028 || c.toNat == 0x2029 ||
  c.toNat == 0xFEFF

/-- Decimal digit (`\d`). -/
def isDigitC (c : Char) : Bool :=
  48 ≤ c.toNat && c.toNat ≤ 57

/-- Model of `String.prototype.split('.')`. -/
def splitDot : List Char → List (List Char)
  | [] => [[]]
  | c :: cs =>
    if c = '.' then [] :: splitDot cs
    else
      match splitDot cs with
      | [] => [[c]]
      | g :: gs => (c :: g) :: gs

/-- Model of `String.prototype.trim`. -/
def trimList (cs : List Char) : List Char :=
  ((cs.dropWhile isJsWs).reverse.dropWhile isJsWs).reverse

/-- Value of a non-empty digit run. -/
def digitsToNat (ds : List Char) : Nat :=
  ds.foldl (fun a c => a * 10 + (c.toNat - 48)) 0

/-- The leading digit run of `r`, as a number; `none` if there is none. -/
def parseDigits (r : List Char) : Option Nat :=
  let ds := r.takeWhile isDigitC
  if ds = [] then none else some (digitsToNat ds)

/-- Model of `parseInt` (radix 10): skip whitespace, optional sign, then a
non-empty digit run; `none` models `NaN`. -/
def jsParseInt (cs : List Char) : Option Int :=
  match cs.dropWhile isJsWs with
  | [] => none
  | c :: r =>
    if c = '-' then (parseDigits r).map (fun n => -(n : Int))
    else if c = '+' then (parseDigits r).map (fun n => (n : Int))
    else (parseDigits (c :: r)).map (fun n => (n : Int))

/-- The per-index comparison loop of `compareVersion`, followed by the
length comparison; a `NaN` from `parseInt` is the thrown error. -/
def cmpLoop : List (List Char) → List (List Char) → Except String Int
  | a :: as, b :: bs =>
    match jsParseInt a with
    | none => .error "version string must only contain number and dot"
    | some x =>
      match jsParseInt b with
      | none => .error "version string must only contain number and dot"
      | some y =>
        if x > y then .ok 1
        else if x < y then .ok (-1)
        else cmpLoop as bs
  | as, bs =>
    .ok (if as.length > bs.length then 1 else if as.length < bs.length then -1 else 0)

/-- Model of `compareVersion`: split both strings on dots, drop the groups
that trim to nothing, compare groups numerically, then compare lengths. -/
def compareVersion (v1 v2 : String) : Except String Int :=
  let v1li := (splitDot v1.toList).filter (fun s => !(trimList s).isEmpty)
  let v2li := (splitDot v2.toList).filter (fun s => !(trimList s).isEmpty)
  cmpLoop v1li v2li

/-- States of the deterministic automaton for the version-string regular
expression: leading whitespace, first digit group, just after a dot, a
later digit group, trailing whitespace, and the dead state. -/
inductive VSt where
  | s0 | s1 | s2 | s3 | s4 | rej
  deriving DecidableEq

/-- Transition function of the automaton. -/
def vstep (s : VSt) (c : Char) : VSt :=
  match s with
  | .s0 => if isJsWs c then .s0 else if isDigitC c then .s1 else .rej
  | .s1 => if isDigitC c then .s1 else if c = '.' then .s2 else .rej
  | .s2 => if isDigitC c then .s3 else .rej
  | .s3 =>
    if isDigitC c then .s3
    else if c = '.' then .s2
    else if isJsWs c then .s4 else .rej
  | .s4 => if isJsWs c then .s4 else .rej
  | .rej => .rej

/-- Accepting states: a completed later digit group, or trailing space. -/
def vaccept (s : VSt) : Bool := s = .s3 || s = .s4

/-- Model of `isVersionString`, the regular expression
`^\s*\d+(?:\.\d+)+\s*$` run as the automaton above. -/
def isVersionString (str : String) : Bool :=
  vaccept (str.toList.foldl vstep .s0)

/-- A dot-group that `parseInt` will accept: after leading whitespace it
starts with a digit. -/
def goodGroup (g : List Char) : Bool :=
  !((g.dropWhile isJsWs).takeWhile isDigitC).isEmpty


theorem expectLit_append : ∀ (l rest : List Char), expectLit l (l ++ rest) = some rest := by
  intro l rest
  induction l with
  | nil => rfl
  | cons a l ih => simp [expectLit, ih]

theorem expectLit_self (l : List Char) : expectLit l l = some [] := by
  simpa using expectLit_append l []

theorem decStrBody_escStr : ∀ (cs rest : List Char),
    decStrBody (escStr cs ++ '"' :: rest) = some (cs, rest) := by
  intro cs
  induction cs with
  | nil =>
    intro rest
    rw [escStr, List.nil_append, decStrBody.eq_def]
    simp
  | cons c cs ih =>
    intro rest
    by_cases h : isEsc c = true
    · rw [escStr, if_pos h, List.cons_append, List.cons_append, decStrBody.eq_def]
      simp [ih]
    · have h1 : ¬ (c = '"') := by
        intro hc; subst hc; simp [isEsc] at h
      have h2 : ¬ (c = '\\') := by
        intro hc; subst hc; simp [isEsc] at h
      rw [escStr, if_neg h, List.cons_append, decStrBody.eq_def]
      simp [h1, h2, ih]

theorem decString_encString (s : String) (rest : List Char) :
    decString (encString s ++ rest) = some (s.toList, rest) := by
  show decString ('"' :: (escStr s.toList ++ ['"']) ++ rest) = some (s.toList, rest)
  rw [List.cons_append, decString]
  simp [List.append_assoc, decStrBody_escStr]

theorem mk_toList (s : String) : String.mk s.toList = s := rfl

theorem decEntry_encEntry (e : CacheEntry) (rest : List Char) :
    decEntry (encEntry e ++ rest) = some (e, rest) := by
  have hshape : encEntry e ++ rest =
      lit "\x7b\"name\":" ++ (encString e.name ++ (lit ",\"sha\":" ++
        (encString e.sha ++ (lit "\x7d" ++ rest)))) := by
    simp [encEntry, List.append_assoc]
  rw [hshape]
  simp only [decEntry, expectLit_append, decString_encString, mk_toList]

theorem decEntry_rbracket (rest : List Char) : decEntry (']' :: rest) = none := rfl

theorem decEntriesAux_encEntries :
    ∀ (files : List CacheEntry) (fuel : Nat) (rest : List Char),
      files.length + 1 ≤ fuel →
      decEntriesAux fuel (encEntries files ++ ']' :: rest) = some (files, rest) := by
  intro files
  induction files with
  | nil =>
    intro fuel rest hf
    match fuel, hf with
    | fuel + 1, _ =>
      rw [encEntries, List.nil_append, decEntriesAux, decEntry_rbracket]
      rfl
  | cons e es ih =>
    intro fuel rest hf
    match fuel, hf with
    | fuel + 1, hf =>
      cases es with
      | nil =>
        rw [encEntries, decEntriesAux, decEntry_encEntry]
        rfl
      | cons e2 es2 =>
        rw [encEntries]
        have hshape : (encEntry e ++ ',' :: encEntries (e2 :: es2)) ++ ']' :: rest =
            encEntry e ++ ',' :: (encEntries (e2 :: es2) ++ ']' :: rest) := by
          simp
        rw [hshape, decEntriesAux, decEntry_encEntry]
        have hfuel : (e2 :: es2).length + 1 ≤ fuel := by
          simpa using Nat.le_of_succ_le_succ hf
        simp [ih fuel rest hfuel]

theorem encEntry_length_pos (e : CacheEntry) : 1 ≤ (encEntry e).length := by
  have h8 : (lit "\x7b\"name\":").length = 8 := rfl
  simp [encEntry, List.length_append, h8]
  omega

theorem encEntries_length_le : ∀ files : List CacheEntry,
    files.length ≤ (encEntries files).length := by
  intro files
  induction files with
  | nil => simp [encEntries]
  | cons e es ih =>
    cases es with
    | nil =>
      simpa [encEntries] using encEntry_length_pos e
    | cons e2 es2 =>
      rw [encEntries]
      have h1 := encEntry_length_pos e
      simp only [List.length_append, List.length_cons]
      simp only [List.length_cons] at ih
      omega

theorem parse_stringify (d : FileCacheInfo) : parseCache (stringifyCache d) = some d := by
  obtain ⟨v, files⟩ := d
  show parseCacheChars (lit "\x7b\"version\":" ++ encString v ++ lit ",\"files\":[" ++
    encEntries files ++ lit "]\x7d") = some ⟨v, files⟩
  have hshape : lit "\x7b\"version\":" ++ encString v ++ lit ",\"files\":[" ++
      encEntries files ++ lit "]\x7d" =
      lit "\x7b\"version\":" ++ (encString v ++ (lit ",\"files\":[" ++
        (encEntries files ++ ']' :: lit "\x7d"))) := by
    simp [List.append_assoc, lit]
  rw [hshape]
  simp only [parseCacheChars, expectLit_append, decString_encString, mk_toList]
  rw [decEntriesAux_encEntries files _ (lit "\x7d") (by
    have := encEntries_length_le files
    simp only [List.length_append, List.length_cons]
    omega)]
  simp [expectLit_self]


theorem findIdxO_none_iff {α : Type} (p : α → Bool) :
    ∀ l : List α, findIdxO p l = none ↔ ∀ x ∈ l, p x = false := by
  intro l
  induction l with
  | nil => simp [findIdxO]
  | cons a l ih =>
    by_cases h : p a <;> simp [findIdxO, h, ih]

theorem upsertRec_of_findIdxO_none :
    ∀ (l : List CacheEntry) (n s : String),
      findIdxO (fun inf => inf.name == n) l = none →
      upsertRec l n s = l ++ [⟨n, s⟩] := by
  intro l n s
  induction l with
  | nil => intro h; rfl
  | cons e es ih =>
    intro h
    by_cases he : e.name = n
    · simp [findIdxO, he] at h
    · have heb : (e.name == n) = false := by simpa using he
      simp [findIdxO, heb] at h
      simp [upsertRec, he, ih h]

theorem upsertRec_of_findIdxO_some :
    ∀ (l : List CacheEntry) (i : Nat) (n s : String),
      findIdxO (fun inf => inf.name == n) l = some i →
      upsertRec l n s = setShaAt l i s := by
  intro l
  induction l with
  | nil => intro i n s h; simp [findIdxO] at h
  | cons e es ih =>
    intro i n s h
    by_cases he : e.name = n
    · simp [findIdxO, he] at h
      subst h
      simp [upsertRec, he, setShaAt]
    · have heb : (e.name == n) = false := by simpa using he
      simp [findIdxO, heb] at h
      obtain ⟨j, hj, hji⟩ := h
      subst hji
      simp [upsertRec, he, setShaAt, ih j n s hj]

theorem add_def (fc : FileCache) (name sha : String) :
    fc.add name sha =
      { fc with cache := { fc.cache with files := upsertRec fc.cache.files name sha } } := by
  unfold FileCache.add
  cases h : findIdxO (fun inf => inf.name == name) fc.cache.files with
  | none => rw [upsertRec_of_findIdxO_none _ _ sha h]
  | some i => rw [upsertRec_of_findIdxO_some _ _ _ sha h]

theorem eraseFirstRec_of_findIdxO_none :
    ∀ (l : List CacheEntry) (n : String),
      findIdxO (fun inf => inf.name == n) l = none →
      eraseFirstRec l n = l := by
  intro l n
  induction l with
  | nil => intro h; rfl
  | cons e es ih =>
    intro h
    by_cases he : e.name = n
    · simp [findIdxO, he] at h
    · have heb : (e.name == n) = false := by simpa using he
      simp [findIdxO, heb] at h
      simp [eraseFirstRec, he, ih h]

theorem eraseFirstRec_of_findIdxO_some :
    ∀ (l : List CacheEntry) (i : Nat) (n : String),
      findIdxO (fun inf => inf.name == n) l = some i →
      eraseFirstRec l n = l.eraseIdx i := by
  intro l
  induction l with
  | nil => intro i n h; simp [findIdxO] at h
  | cons e es ih =>
    intro i n h
    by_cases he : e.name = n
    · simp [findIdxO, he] at h
      subst h
      simp [eraseFirstRec, he]
    · have heb : (e.name == n) = false := by simpa using he
      simp [findIdxO, heb] at h
      obtain ⟨j, hj, hji⟩ := h
      subst hji
      simp [eraseFirstRec, he, ih j n hj]

theorem clear_some_def (fc : FileCache) (name : String) (h : name ≠ "") :
    fc.clear (some name) =
      { fc with cache := { fc.cache with files := eraseFirstRec fc.cache.files name } } := by
  simp only [FileCache.clear]
  rw [if_pos h]
  cases hi : findIdxO (fun inf => inf.name == name) fc.cache.files with
  | none => rw [eraseFirstRec_of_findIdxO_none _ _ hi]
  | some i => rw [eraseFirstRec_of_findIdxO_some _ _ _ hi]

theorem get_spec_core (fs : FS) :
    ∀ (folder cf ver : String) (files : List CacheEntry) (name sha : String),
      FileCache.get fs ⟨folder, cf, ⟨ver, files⟩⟩ name sha =
        (if (∃ e ∈ files, e.name = name ∧ e.sha = sha) ∧
            fsIsFile fs (joinPath folder name) = true
         then some (joinPath folder name) else none) := by
  intro folder cf ver files name sha
  induction files with
  | nil => simp [FileCache.get, findIdxO]
  | cons e es ih =>
    by_cases hm : (e.name == name && e.sha == sha) = true
    · have hand := (Bool.and_eq_true _ _).mp hm
      have hname : e.name = name := beq_iff_eq.mp hand.1
      have hsha : e.sha = sha := beq_iff_eq.mp hand.2
      have hex : (∃ x ∈ e :: es, x.name = name ∧ x.sha = sha) :=
        ⟨e, List.mem_cons_self e es, hname, hsha⟩
      have h0 : findIdxO (fun inf => inf.name == name && inf.sha == sha) (e :: es)
          = some 0 := by
        simp [findIdxO, hm]
      by_cases hf : fsIsFile fs (joinPath folder name) = true
      · simp only [FileCache.get, h0, List.getElem?_cons_zero, hname]
        rw [if_pos hf, if_pos ⟨hex, hf⟩]
      · simp only [FileCache.get, h0, List.getElem?_cons_zero, hname]
        rw [if_neg hf, if_neg (fun hc => hf hc.2)]
    · cases hi : findIdxO (fun inf => inf.name == name && inf.sha == sha) es with
      | none =>
        have h0 : findIdxO (fun inf => inf.name == name && inf.sha == sha) (e :: es)
            = none := by
          simp [findIdxO, hm, hi]
        have hall := (findIdxO_none_iff _ es).mp hi
        have hnex : ¬ ((∃ x ∈ e :: es, x.name = name ∧ x.sha = sha) ∧
            fsIsFile fs (joinPath folder name) = true) := by
          rintro ⟨⟨x, hx, hxn, hxs⟩, hf⟩
          rcases List.mem_cons.mp hx with h1 | h2
          · subst h1
            exact hm (by simp [hxn, hxs])
          · have := hall x h2
            simp [hxn, hxs] at this
        simp only [FileCache.get, h0]
        rw [if_neg hnex]
      | some j =>
        have h0 : findIdxO (fun inf => inf.name == name && inf.sha == sha) (e :: es)
            = some (j + 1) := by
          simp [findIdxO, hm, hi]
        have hiff : ((∃ x ∈ e :: es, x.name = name ∧ x.sha = sha) ∧
            fsIsFile fs (joinPath folder name) = true) ↔
            ((∃ x ∈ es, x.name = name ∧ x.sha = sha) ∧
              fsIsFile fs (joinPath folder name) = true) := by
          constructor
          · rintro ⟨⟨x, hx, hxn, hxs⟩, hf⟩
            rcases List.mem_cons.mp hx with h1 | h2
            · subst h1
              exact absurd (by simp [hxn, hxs]) hm
            · exact ⟨⟨x, h2, hxn, hxs⟩, hf⟩
          · rintro ⟨⟨x, hx, hxp⟩, hf⟩
            exact ⟨⟨x, List.mem_cons_of_mem e hx, hxp⟩, hf⟩
        have ih' := ih
        simp only [FileCache.get, hi] at ih'
        simp only [FileCache.get, h0, List.getElem?_cons_succ]
        rw [ih']
        exact (if_congr hiff rfl rfl).symm

theorem get_spec (fs : FS) (fc : FileCache) (name sha : String) :
    FileCache.get fs fc name sha =
      if (∃ e ∈ fc.cache.files, e.name = name ∧ e.sha = sha) ∧
          fsIsFile fs (joinPath fc.folder name) = true
      then some (joinPath fc.folder name) else none := by
  obtain ⟨folder, cf, ⟨ver, files⟩⟩ := fc
  exact get_spec_core fs folder cf ver files name sha


theorem upsertRec_not_mem :
    ∀ (l : List CacheEntry) (n s : String),
      (∀ e ∈ l, e.name ≠ n) → upsertRec l n s = l ++ [⟨n, s⟩] := by
  intro l n s
  induction l with
  | nil => intro _; rfl
  | cons e es ih =>
    intro h
    have he : e.name ≠ n := h e (List.mem_cons_self e es)
    rw [upsertRec, if_neg he, ih (fun x hx => h x (List.mem_cons_of_mem e hx))]
    rfl

theorem upsertRec_split :
    ∀ (l1 : List CacheEntry) (e : CacheEntry) (l2 : List CacheEntry) (name sha : String),
      e.name = name → (∀ x ∈ l1, x.name ≠ name) →
      upsertRec (l1 ++ e :: l2) name sha = l1 ++ ⟨name, sha⟩ :: l2 := by
  intro l1
  induction l1 with
  | nil =>
    intro e l2 name sha he _
    simp [upsertRec, he]
  | cons x l1 ih =>
    intro e l2 name sha he hx
    have hxn : x.name ≠ name := hx x (List.mem_cons_self x l1)
    rw [List.cons_append, upsertRec, if_neg hxn,
      ih e l2 name sha he (fun y hy => hx y (List.mem_cons_of_mem x hy))]
    rfl

theorem eraseFirstRec_not_mem :
    ∀ (l : List CacheEntry) (n : String),
      (∀ e ∈ l, e.name ≠ n) → eraseFirstRec l n = l := by
  intro l n
  induction l with
  | nil => intro _; rfl
  | cons e es ih =>
    intro h
    have he : e.name ≠ n := h e (List.mem_cons_self e es)
    rw [eraseFirstRec, if_neg he, ih (fun x hx => h x (List.mem_cons_of_mem e hx))]

theorem eraseFirstRec_split :
    ∀ (l1 : List CacheEntry) (e : CacheEntry) (l2 : List CacheEntry) (name : String),
      e.name = name → (∀ x ∈ l1, x.name ≠ name) →
      eraseFirstRec (l1 ++ e :: l2) name = l1 ++ l2 := by
  intro l1
  induction l1 with
  | nil =>
    intro e l2 name he _
    simp [eraseFirstRec, he]
  | cons x l1 ih =>
    intro e l2 name he hx
    have hxn : x.name ≠ name := hx x (List.mem_cons_self x l1)
    rw [List.cons_append, eraseFirstRec, if_neg hxn,
      ih e l2 name he (fun y hy => hx y (List.mem_cons_of_mem x hy))]
    rfl

theorem filter_upsertRec :
    ∀ (l : List CacheEntry) (n s : String),
      (l.filter (fun e => e.name == n)).length ≤ 1 →
      (upsertRec l n s).filter (fun e => e.name == n) = [⟨n, s⟩] := by
  intro l n s
  induction l with
  | nil => intro _; simp [upsertRec]
  | cons e es ih =>
    intro h
    by_cases he : e.name = n
    · have heb : (e.name == n) = true := by simpa using he
      rw [List.filter_cons, if_pos heb] at h
      simp only [List.length_cons] at h
      have h0 : (es.filter (fun x => x.name == n)).length = 0 := by omega
      have hempty : es.filter (fun x => x.name == n) = [] :=
        List.length_eq_zero.mp h0
      rw [upsertRec, if_pos he, List.filter_cons]
      simp [he, hempty]
    · have heb : (e.name == n) = false := by simpa using he
      rw [List.filter_cons, if_neg (by simp [heb])] at h
      rw [upsertRec, if_neg he, List.filter_cons, if_neg (by simp [heb])]
      exact ih h

theorem mem_names_upsertRec :
    ∀ (l : List CacheEntry) (n s x : String),
      x ∈ (upsertRec l n s).map CacheEntry.name ↔
        x ∈ l.map CacheEntry.name ∨ x = n := by
  intro l n s x
  induction l with
  | nil => simp [upsertRec]
  | cons e es ih =>
    by_cases he : e.name = n
    · rw [upsertRec, if_pos he]
      simp only [List.map_cons, List.mem_cons]
      constructor
      · rintro (h1 | h2)
        · exact Or.inl (Or.inl h1)
        · exact Or.inl (Or.inr h2)
      · rintro ((h1 | h2) | h3)
        · exact Or.inl h1
        · exact Or.inr h2
        · exact Or.inl (by rw [h3, he])
    · rw [upsertRec, if_neg he]
      simp only [List.map_cons, List.mem_cons, ih]
      tauto

theorem nodup_names_upsertRec :
    ∀ (l : List CacheEntry) (n s : String),
      (l.map CacheEntry.name).Nodup → ((upsertRec l n s).map CacheEntry.name).Nodup := by
  intro l n s
  induction l with
  | nil => intro _; simp [upsertRec]
  | cons e es ih =>
    intro h
    simp only [List.map_cons, List.nodup_cons] at h
    by_cases he : e.name = n
    · rw [upsertRec, if_pos he]
      simp only [List.map_cons, List.nodup_cons]
      exact h
    · rw [upsertRec, if_neg he]
      simp only [List.map_cons, List.nodup_cons]
      refine ⟨?_, ih h.2⟩
      intro hmem
      rcases (mem_names_upsertRec es n s e.name).mp hmem with h1 | h2
      · exact h.1 h1
      · exact he h2

theorem mem_names_eraseFirstRec :
    ∀ (l : List CacheEntry) (n x : String),
      x ∈ (eraseFirstRec l n).map CacheEntry.name → x ∈ l.map CacheEntry.name := by
  intro l n x
  induction l with
  | nil => simp [eraseFirstRec]
  | cons e es ih =>
    by_cases he : e.name = n
    · rw [eraseFirstRec, if_pos he]
      simp only [List.map_cons, List.mem_cons]
      exact fun h => Or.inr h
    · rw [eraseFirstRec, if_neg he]
      simp only [List.map_cons, List.mem_cons]
      rintro (h1 | h2)
      · exact Or.inl h1
      · exact Or.inr (ih h2)

theorem nodup_names_eraseFirstRec :
    ∀ (l : List CacheEntry) (n : String),
      (l.map CacheEntry.name).Nodup → ((eraseFirstRec l n).map CacheEntry.name).Nodup := by
  intro l n
  induction l with
  | nil => intro h; exact h
  | cons e es ih =>
    intro h
    simp only [List.map_cons, List.nodup_cons] at h
    by_cases he : e.name = n
    · rw [eraseFirstRec, if_pos he]
      exact h.2
    · rw [eraseFirstRec, if_neg he]
      simp only [List.map_cons, List.nodup_cons]
      exact ⟨fun hin => h.1 (mem_names_eraseFirstRec es n e.name hin), ih h.2⟩

theorem nodup_entryNames_applyOp (fc : FileCache) (fs : FS) (op : CacheOp)
    (h : (entryNames fc).Nodup) : (entryNames (applyOp (fc, fs) op).1).Nodup := by
  cases op with
  | addOp n s =>
    show (entryNames (fc.add n s)).Nodup
    rw [entryNames, add_def]
    exact nodup_names_upsertRec _ n s h
  | clearOp nameOpt =>
    show (entryNames (fc.clear nameOpt)).Nodup
    cases nameOpt with
    | none => simp [FileCache.clear, entryNames]
    | some nm =>
      by_cases hnm : nm = ""
      · subst hnm
        simp [FileCache.clear, entryNames]
      · rw [entryNames, clear_some_def fc nm hnm]
        exact nodup_names_eraseFirstRec _ nm h
  | saveOp => exact h

theorem nodup_entryNames_applyOps :
    ∀ (ops : List CacheOp) (fc : FileCache) (fs : FS),
      (entryNames fc).Nodup → (entryNames (applyOps (fc, fs) ops).1).Nodup := by
  intro ops
  induction ops with
  | nil => intro fc fs h; exact h
  | cons op ops ih =>
    intro fc fs h
    have h1 := nodup_entryNames_applyOp fc fs op h
    exact ih (applyOp (fc, fs) op).1 (applyOp (fc, fs) op).2 h1

theorem snd_applyOps_no_save :
    ∀ (ops : List CacheOp) (fc : FileCache) (fs : FS),
      (∀ op ∈ ops, op ≠ CacheOp.saveOp) → (applyOps (fc, fs) ops).2 = fs := by
  intro ops
  induction ops with
  | nil => intro fc fs _; rfl
  | cons op ops ih =>
    intro fc fs h
    have hop := h op (List.mem_cons_self op ops)
    have hrest : ∀ o ∈ ops, o ≠ CacheOp.saveOp :=
      fun o ho => h o (List.mem_cons_of_mem op ho)
    cases op with
    | addOp n s => exact ih (fc.add n s) fs hrest
    | clearOp n => exact ih (fc.clear n) fs hrest
    | saveOp => exact absurd rfl hop

theorem fsLookup_fsWrite_self (fs : FS) (p c : String) :
    fsLookup (fsWrite fs p c) p = some c := by
  simp [fsLookup, fsWrite, List.find?_cons]


/-- C1: `FileCache.get` returns the handle to the file at root-plus-name
exactly when some entry matches both `name` and `sha` and the backing file
exists on disk; in every other case it returns `none`. -/
theorem get_hit_iff_compound_match (fs : FS) (fc : FileCache) (name sha : String) :
    FileCache.get fs fc name sha =
      if (∃ e ∈ fc.cache.files, e.name = name ∧ e.sha = sha) ∧
          fsIsFile fs (joinPath fc.folder name) = true
      then some (joinPath fc.folder name) else none :=
  get_spec fs fc name sha

/-- C2: `add` has upsert semantics: with no entry named `name` it appends;
with an entry named `name` it overwrites that entry's `sha` in place; and
two successive `add` calls for the same name leave exactly one entry for
it, carrying the second `sha` (in states where the name occurs at most
once, as in every well-formed document). -/
theorem add_upsert_semantics (fc : FileCache) (name sha s1 s2 : String) :
    ((∀ e ∈ fc.cache.files, e.name ≠ name) →
      (fc.add name sha).cache.files = fc.cache.files ++ [⟨name, sha⟩])
    ∧ (∀ (l1 : List CacheEntry) (e : CacheEntry) (l2 : List CacheEntry),
        fc.cache.files = l1 ++ e :: l2 → e.name = name →
        (∀ x ∈ l1, x.name ≠ name) →
        (fc.add name sha).cache.files = l1 ++ ⟨name, sha⟩ :: l2)
    ∧ ((fc.cache.files.filter (fun e => e.name == name)).length ≤ 1 →
        ((fc.add name s1).add name s2).cache.files.filter (fun e => e.name == name)
          = [⟨name, s2⟩]) := by
  refine ⟨?_, ?_, ?_⟩
  · intro h
    rw [add_def]
    exact upsertRec_not_mem fc.cache.files name sha h
  · intro l1 e l2 hsplit he hl1
    rw [add_def]
    show upsertRec fc.cache.files name sha = l1 ++ ⟨name, sha⟩ :: l2
    rw [hsplit]
    exact upsertRec_split l1 e l2 name sha he hl1
  · intro h
    rw [add_def, add_def]
    show (upsertRec (upsertRec fc.cache.files name s1) name s2).filter
        (fun e => e.name == name) = [⟨name, s2⟩]
    apply filter_upsertRec
    rw [filter_upsertRec fc.cache.files name s1 h]
    simp

/-- C3 counterexample: the claim promises that `clear(name)` only removes
the entry with that name; but the JavaScript truthiness test `if (name)`
sends the empty string to the clear-all branch, so in a state holding
entries named "" and "b", `clear("")` also deletes the entry named "b". -/
theorem clear_empty_string_counterexample :
    ((FileCache.mk "/r" "/r/cache.json"
        ⟨"1.0", [⟨"", "x"⟩, ⟨"b", "2"⟩]⟩).clear (some "")).cache.files = [] ∧
    ((FileCache.mk "/r" "/r/cache.json"
        ⟨"1.0", [⟨"", "x"⟩, ⟨"b", "2"⟩]⟩).clear (some "")).cache.files
      ≠ [⟨"b", "2"⟩] := by
  exact ⟨rfl, by decide⟩

/-- C3 (amended): for every nonempty `name`, `clear(some name)` removes the
first entry with that name when present (a no-op when absent) and leaves
every other entry unchanged; `clear` with the argument omitted, or with the
falsy empty string, removes all entries and makes every subsequent `get`
miss. -/
theorem clear_selective_amended (fc : FileCache) (name : String) (hname : name ≠ "") :
    ((∀ e ∈ fc.cache.files, e.name ≠ name) → fc.clear (some name) = fc)
    ∧ (∀ (l1 : List CacheEntry) (e : CacheEntry) (l2 : List CacheEntry),
        fc.cache.files = l1 ++ e :: l2 → e.name = name →
        (∀ x ∈ l1, x.name ≠ name) →
        (fc.clear (some name)).cache.files = l1 ++ l2)
    ∧ (fc.clear none).cache.files = [] ∧ (fc.clear (some "")).cache.files = []
    ∧ (∀ (fsq : FS) (n s : String), FileCache.get fsq (fc.clear none) n s = none) := by
  refine ⟨?_, ?_, rfl, rfl, ?_⟩
  · intro h
    rw [clear_some_def fc name hname, eraseFirstRec_not_mem fc.cache.files name h]
  · intro l1 e l2 hsplit he hl1
    rw [clear_some_def fc name hname]
    show eraseFirstRec fc.cache.files name = l1 ++ l2
    rw [hsplit]
    exact eraseFirstRec_split l1 e l2 name he hl1
  · intro fsq n s
    rfl

/-- C4 counterexample: constructing a cache over a folder whose cache.json
holds two entries with the same name loads that document unchanged, so the
in-memory names are not pairwise distinct even though the state is reached
by construction from an on-disk document. -/
theorem construct_duplicate_names_counterexample :
    FileCache.construct
        [(joinPath "/r" "cache.json", stringifyCache ⟨"1.0", [⟨"a", "1"⟩, ⟨"a", "2"⟩]⟩)]
        "/r"
      = .ok ⟨"/r", joinPath "/r" "cache.json", ⟨"1.0", [⟨"a", "1"⟩, ⟨"a", "2"⟩]⟩⟩ ∧
    ¬ ((([⟨"a", "1"⟩, ⟨"a", "2"⟩] : List CacheEntry).map CacheEntry.name).Nodup) := by
  constructor
  · have hp := parse_stringify ⟨"1.0", [⟨"a", "1"⟩, ⟨"a", "2"⟩]⟩
    simp [FileCache.construct, fsLookup, List.find?_cons, hp]
  · decide

/-- C4 (amended): every cache reachable by construction from a folder whose
document (when present) has pairwise-distinct entry names, followed by any
sequence of add, clear and save calls, has pairwise-distinct entry names. -/
theorem reachable_names_nodup (fs : FS) (root : String) (fc0 : FileCache)
    (ops : List CacheOp)
    (h0 : FileCache.construct fs root = .ok fc0)
    (h1 : (entryNames fc0).Nodup) :
    (entryNames (applyOps (fc0, fs) ops).1).Nodup :=
  nodup_entryNames_applyOps ops fc0 fs h1

/-- C5: starting from a folder with no cache.json, after `add("a","1")` and
`save()`, reconstructing a cache over the written filesystem yields an
instance whose `get("a","1")` agrees with the original instance's on every
filesystem state. -/
theorem persistence_roundtrip (fs : FS) (root : String)
    (h : fsLookup fs (joinPath root "cache.json") = none) :
    ∃ fc0 fc2,
      FileCache.construct fs root = .ok fc0 ∧
      FileCache.construct ((fc0.add "a" "1").save fs) root = .ok fc2 ∧
      ∀ fsq : FS, FileCache.get fsq fc2 "a" "1" = FileCache.get fsq (fc0.add "a" "1") "a" "1" := by
  refine ⟨⟨root, joinPath root "cache.json", ⟨"1.0", []⟩⟩,
    ⟨root, joinPath root "cache.json", ⟨"1.0", [⟨"a", "1"⟩]⟩⟩, ?_, ?_, ?_⟩
  · simp [FileCache.construct, h]
  · show FileCache.construct
        (fsWrite fs (joinPath root "cache.json") (stringifyCache ⟨"1.0", [⟨"a", "1"⟩]⟩))
        root = _
    simp [FileCache.construct, fsLookup_fsWrite_self, parse_stringify]
  · intro fsq
    rfl

/-- C6: a sequence of `add` and `clear` calls containing no `save` leaves
the filesystem -- in particular the on-disk cache.json -- unchanged. -/
theorem no_disk_mutation_without_save (fc : FileCache) (fs : FS) (ops : List CacheOp)
    (h : ∀ op ∈ ops, op ≠ CacheOp.saveOp) :
    (applyOps (fc, fs) ops).2 = fs :=
  snd_applyOps_no_save ops fc fs h

/-- C7: construction initializes the fresh document `version "1.0"`, empty
entries, when cache.json is absent; loads the parsed document when the file
parses; and fails with an error when the file exists but does not parse. -/
theorem construct_contract (fs : FS) (root : String) :
    (fsIsFile fs (joinPath root "cache.json") = false →
      FileCache.construct fs root =
        .ok ⟨root, joinPath root "cache.json", ⟨"1.0", []⟩⟩)
    ∧ (∀ content doc, fsLookup fs (joinPath root "cache.json") = some content →
        parseCache content = some doc →
        FileCache.construct fs root = .ok ⟨root, joinPath root "cache.json", doc⟩)
    ∧ (∀ content, fsLookup fs (joinPath root "cache.json") = some content →
        parseCache content = none →
        ∃ msg, FileCache.construct fs root = .error msg) := by
  refine ⟨?_, ?_, ?_⟩
  · intro h
    cases hl : fsLookup fs (joinPath root "cache.json") with
    | none => simp [FileCache.construct, hl]
    | some c => simp [fsIsFile, hl] at h
  · intro content doc h1 h2
    simp [FileCache.construct, h1, h2]
  · intro content h1 h2
    exact ⟨"JSON parse error: unexpected token", by simp [FileCache.construct, h1, h2]⟩

/-- C8: when some entry matches `(name, sha)` but the backing file is
missing from disk, `get` returns `none` (a plain miss, no exception in the
total model, and the in-memory document is untouched since `get` does not
mutate the instance). -/
theorem stale_index_get_none (fs : FS) (fc : FileCache) (name sha : String)
    (h1 : ∃ e ∈ fc.cache.files, e.name = name ∧ e.sha = sha)
    (h2 : fsIsFile fs (joinPath fc.folder name) = false) :
    FileCache.get fs fc name sha = none := by
  rw [get_spec, if_neg]
  rintro ⟨-, hf⟩
  rw [h2] at hf
  cases hf

/-- C9: `genGithubHash` on a byte buffer digests exactly the git blob
preimage: the header `blob <decimal length>`, one NUL byte, then the buffer
itself, passed to the external SHA-1 hex-digest primitive. -/
theorem genGithubHash_blob_preimage (sha1hex : List Nat → String) (f : List Nat) :
    genGithubHash sha1hex f = sha1hex (gitBlobPreimage f) := by
  simp [genGithubHash, gitBlobPreimage, List.append_assoc]
  rw [List.take_of_length_le (by simp [List.length_append]; omega)]


theorem foldl_vstep_rej : ∀ cs : List Char, cs.foldl vstep .rej = .rej := by
  intro cs
  induction cs with
  | nil => rfl
  | cons c cs ih => exact ih

theorem splitDot_ne_nil : ∀ cs : List Char, splitDot cs ≠ [] := by
  intro cs
  induction cs with
  | nil => simp [splitDot]
  | cons c cs ih =>
    rw [splitDot.eq_def]
    by_cases h : c = '.'
    · simp [h]
    · simp only [h, if_false]
      cases hs : splitDot cs with
      | nil => simp
      | cons g gs => simp

theorem splitDot_dot (cs : List Char) : splitDot ('.' :: cs) = [] :: splitDot cs := by
  rw [splitDot.eq_def]
  simp

theorem isDigitC_not_ws {c : Char} (h : isDigitC c = true) : isJsWs c = false := by
  simp only [isDigitC, Bool.and_eq_true, decide_eq_true_eq] at h
  simp only [isJsWs, Bool.or_eq_false_iff, beq_eq_false_iff_ne, ne_eq]
  omega

theorem isDigitC_ne_dot {c : Char} (h : isDigitC c = true) : ¬ (c = '.') := by
  intro hc
  subst hc
  exact absurd h (by decide)

theorem isDigitC_ne_minus {c : Char} (h : isDigitC c = true) : ¬ (c = '-') := by
  intro hc
  subst hc
  exact absurd h (by decide)

theorem isDigitC_ne_plus {c : Char} (h : isDigitC c = true) : ¬ (c = '+') := by
  intro hc
  subst hc
  exact absurd h (by decide)


theorem vaccept_groups :
    ∀ (cs : List Char) (s : VSt), vaccept (cs.foldl vstep s) = true →
      (∀ g ∈ (splitDot cs).tail, goodGroup g = true) ∧
      ((s = VSt.s0 ∨ s = VSt.s2) → ∀ g ∈ splitDot cs, goodGroup g = true) := by
  intro cs
  induction cs with
  | nil =>
    intro s h
    simp only [List.foldl_nil] at h
    constructor
    · simp [splitDot]
    · rintro (rfl | rfl) <;> simp [vaccept] at h
  | cons c cs ih =>
    intro s h
    rw [List.foldl_cons] at h
    by_cases hdot : c = '.'
    · subst hdot
      have hcase : vstep s '.' = VSt.s2 ∨ vstep s '.' = VSt.rej := by
        cases s <;> first | exact Or.inl rfl | exact Or.inr rfl
      rcases hcase with h2 | hrej
      · rw [h2] at h
        have hall := (ih VSt.s2 h).2 (Or.inr rfl)
        constructor
        · rw [splitDot_dot]
          exact fun g hg => hall g hg
        · rintro (rfl | rfl)
          · exact absurd h2 (by decide)
          · exact absurd h2 (by decide)
      · rw [hrej, foldl_vstep_rej] at h
        simp [vaccept] at h
    · obtain ⟨g0, gs, hsplit⟩ : ∃ g0 gs, splitDot cs = g0 :: gs := by
        cases hs : splitDot cs with
        | nil => exact absurd hs (splitDot_ne_nil cs)
        | cons g gs => exact ⟨g, gs, rfl⟩
      have hsplitc : splitDot (c :: cs) = (c :: g0) :: gs := by
        rw [splitDot.eq_def]
        simp [hdot, hsplit]
      have htail : ∀ g ∈ gs, goodGroup g = true := by
        intro g hg
        exact (ih (vstep s c) h).1 g (by rw [hsplit]; exact hg)
      by_cases hd : isDigitC c = true
      · have hgood : goodGroup (c :: g0) = true := by
          simp [goodGroup, List.dropWhile_cons, List.takeWhile_cons, isDigitC_not_ws hd, hd]
        constructor
        · rw [hsplitc]
          exact fun g hg => htail g hg
        · intro _
          rw [hsplitc]
          intro g hg
          rcases List.mem_cons.mp hg with rfl | hgs
          · exact hgood
          · exact htail g hgs
      · by_cases hw : isJsWs c = true
        · constructor
          · rw [hsplitc]
            exact fun g hg => htail g hg
          · rintro (rfl | rfl)
            · have hstep : vstep VSt.s0 c = VSt.s0 := by simp [vstep, hw]
              rw [hstep] at h
              have hall := (ih VSt.s0 h).2 (Or.inl rfl)
              rw [hsplitc]
              intro g hg
              rcases List.mem_cons.mp hg with rfl | hgs
              · have hg0 : goodGroup g0 = true :=
                  hall g0 (by rw [hsplit]; exact List.mem_cons_self _ _)
                simpa [goodGroup, List.dropWhile_cons, hw] using hg0
              · exact htail g hgs
            · have hstep : vstep VSt.s2 c = VSt.rej := by simp [vstep, hd]
              rw [hstep, foldl_vstep_rej] at h
              simp [vaccept] at h
        · have hstep : vstep s c = VSt.rej := by
            cases s <;> simp [vstep, hd, hw, hdot]
          rw [hstep, foldl_vstep_rej] at h
          simp [vaccept] at h


theorem isVersionString_groups (str : String) (h : isVersionString str = true) :
    ∀ g ∈ splitDot str.toList, goodGroup g = true :=
  (vaccept_groups str.toList VSt.s0 h).2 (Or.inl rfl)

theorem jsParseInt_of_goodGroup (g : List Char) (h : goodGroup g = true) :
    ∃ n, jsParseInt g = some n := by
  simp only [goodGroup, Bool.not_eq_true'] at h
  cases ht : g.dropWhile isJsWs with
  | nil =>
    rw [ht] at h
    simp at h
  | cons c r =>
    rw [ht] at h
    have hd : isDigitC c = true := by
      by_contra hc
      rw [List.takeWhile_cons, if_neg hc] at h
      simp at h
    have h1 : ¬ (c = '-') := isDigitC_ne_minus hd
    have h2 : ¬ (c = '+') := isDigitC_ne_plus hd
    refine ⟨(digitsToNat ((c :: r).takeWhile isDigitC) : Int), ?_⟩
    simp only [jsParseInt, ht]
    rw [if_neg h1, if_neg h2, parseDigits]
    rw [if_neg (by rw [List.takeWhile_cons, if_pos hd]; simp)]
    simp

theorem cmpLoop_total :
    ∀ (as bs : List (List Char)),
      (∀ a ∈ as, ∃ n, jsParseInt a = some n) →
      (∀ b ∈ bs, ∃ n, jsParseInt b = some n) →
      cmpLoop as bs = .ok (-1) ∨ cmpLoop as bs = .ok 0 ∨ cmpLoop as bs = .ok 1 := by
  intro as
  induction as with
  | nil =>
    intro bs _ _
    cases bs with
    | nil => exact Or.inr (Or.inl rfl)
    | cons b bs2 =>
      have hcl : cmpLoop [] (b :: bs2) = .ok (-1) := by
        rw [cmpLoop.eq_def]
        simp
      rw [hcl]
      exact Or.inl rfl
  | cons a as ih =>
    intro bs ha hb
    cases bs with
    | nil =>
      have hcl : cmpLoop (a :: as) [] = .ok 1 := by
        rw [cmpLoop.eq_def]
        simp
      rw [hcl]
      exact Or.inr (Or.inr rfl)
    | cons b bs2 =>
      obtain ⟨x, hx⟩ := ha a (List.mem_cons_self a as)
      obtain ⟨y, hy⟩ := hb b (List.mem_cons_self b bs2)
      have heq : cmpLoop (a :: as) (b :: bs2) =
          (if x > y then Except.ok 1 else if x < y then Except.ok (-1)
           else cmpLoop as bs2) := by
        rw [cmpLoop.eq_def]
        simp [hx, hy]
      rw [heq]
      by_cases h1 : x > y
      · rw [if_pos h1]
        exact Or.inr (Or.inr rfl)
      · rw [if_neg h1]
        by_cases h2 : x < y
        · rw [if_pos h2]
          exact Or.inl rfl
        · rw [if_neg h2]
          exact ih bs2 (fun a2 ha2 => ha a2 (List.mem_cons_of_mem a ha2))
            (fun b2 hb2 => hb b2 (List.mem_cons_of_mem b hb2))

/-- C10: on any two strings accepted by `isVersionString`, `compareVersion`
terminates without the thrown error and returns exactly -1, 0 or 1. -/
theorem compareVersion_total_on_version_strings (v1 v2 : String)
    (h1 : isVersionString v1 = true) (h2 : isVersionString v2 = true) :
    compareVersion v1 v2 = .ok (-1) ∨ compareVersion v1 v2 = .ok 0 ∨
      compareVersion v1 v2 = .ok 1 := by
  have g1 := isVersionString_groups v1 h1
  have g2 := isVersionString_groups v2 h2
  simp only [compareVersion]
  apply cmpLoop_total
  · intro a hamem
    exact jsParseInt_of_goodGroup a (g1 a (List.mem_of_mem_filter hamem))
  · intro b hbmem
    exact jsParseInt_of_goodGroup b (g2 b (List.mem_of_mem_filter hbmem))

/-- Witness for C10 at the concrete pair "1.2", "1.10". -/
theorem compareVersion_total_witness :
    compareVersion "1.2" "1.10" = .ok (-1) ∨ compareVersion "1.2" "1.10" = .ok 0 ∨
      compareVersion "1.2" "1.10" = .ok 1 :=
  compareVersion_total_on_version_strings "1.2" "1.10" (by rfl) (by rfl)


/-- Witness for C2 at a concrete one-entry cache. -/
theorem add_upsert_semantics_witness :
    ((FileCache.mk "/r" "/r/cache.json" ⟨"1.0", [⟨"a", "0"⟩]⟩).add "b" "9").cache.files
        = [⟨"a", "0"⟩] ++ [⟨"b", "9"⟩] ∧
    ((FileCache.mk "/r" "/r/cache.json" ⟨"1.0", [⟨"a", "0"⟩]⟩).add "a" "7").cache.files
        = [] ++ ⟨"a", "7"⟩ :: [] ∧
    (((FileCache.mk "/r" "/r/cache.json" ⟨"1.0", [⟨"a", "0"⟩]⟩).add "a" "1").add
        "a" "2").cache.files.filter (fun e => e.name == "a") = [⟨"a", "2"⟩] := by
  refine ⟨?_, ?_, ?_⟩
  · exact (add_upsert_semantics _ "b" "9" "x" "y").1 (by decide)
  · exact (add_upsert_semantics _ "a" "7" "x" "y").2.1 [] ⟨"a", "0"⟩ [] rfl rfl (by decide)
  · exact (add_upsert_semantics _ "a" "x" "1" "2").2.2 (by decide)

/-- Witness for the amended C3 at a concrete two-entry cache. -/
theorem clear_selective_amended_witness :
    (FileCache.mk "/r" "/r/cache.json" ⟨"1.0", [⟨"a", "1"⟩, ⟨"b", "2"⟩]⟩).clear (some "z")
        = FileCache.mk "/r" "/r/cache.json" ⟨"1.0", [⟨"a", "1"⟩, ⟨"b", "2"⟩]⟩ ∧
    ((FileCache.mk "/r" "/r/cache.json" ⟨"1.0", [⟨"a", "1"⟩, ⟨"b", "2"⟩]⟩).clear
        (some "a")).cache.files = [] ++ [⟨"b", "2"⟩] ∧
    ((FileCache.mk "/r" "/r/cache.json" ⟨"1.0", [⟨"a", "1"⟩, ⟨"b", "2"⟩]⟩).clear
        none).cache.files = [] ∧
    FileCache.get ([] : FS)
        ((FileCache.mk "/r" "/r/cache.json" ⟨"1.0", [⟨"a", "1"⟩, ⟨"b", "2"⟩]⟩).clear none)
        "a" "1" = none := by
  refine ⟨?_, ?_, ?_, ?_⟩
  · exact (clear_selective_amended _ "z" (by decide)).1 (by decide)
  · exact (clear_selective_amended _ "a" (by decide)).2.1 [] ⟨"a", "1"⟩ [⟨"b", "2"⟩]
      rfl rfl (by decide)
  · exact (clear_selective_amended _ "a" (by decide)).2.2.1
  · exact (clear_selective_amended _ "a" (by decide)).2.2.2.2 [] "a" "1"

/-- Witness for the amended C4 along a concrete construction and call trace. -/
theorem reachable_names_nodup_witness :
    (entryNames (applyOps (⟨"/r", joinPath "/r" "cache.json", ⟨"1.0", []⟩⟩, ([] : FS))
      [CacheOp.addOp "a" "1", CacheOp.addOp "b" "2", CacheOp.saveOp]).1).Nodup :=
  reachable_names_nodup [] "/r" ⟨"/r", joinPath "/r" "cache.json", ⟨"1.0", []⟩⟩
    [CacheOp.addOp "a" "1", CacheOp.addOp "b" "2", CacheOp.saveOp] rfl (by decide)

/-- Witness for C5 on the empty filesystem. -/
theorem persistence_roundtrip_witness :
    ∃ fc0 fc2,
      FileCache.construct ([] : FS) "/r" = .ok fc0 ∧
      FileCache.construct ((fc0.add "a" "1").save []) "/r" = .ok fc2 ∧
      ∀ fsq : FS, FileCache.get fsq fc2 "a" "1" = FileCache.get fsq (fc0.add "a" "1") "a" "1" :=
  persistence_roundtrip [] "/r" rfl

/-- Witness for C6 on a concrete save-free call trace. -/
theorem no_disk_mutation_without_save_witness :
    (applyOps (⟨"/r", "/r/cache.json", ⟨"1.0", []⟩⟩, ([("/r/cache.json", "old")] : FS))
      [CacheOp.addOp "a" "1", CacheOp.clearOp none]).2 = [("/r/cache.json", "old")] :=
  no_disk_mutation_without_save ⟨"/r", "/r/cache.json", ⟨"1.0", []⟩⟩
    [("/r/cache.json", "old")] [CacheOp.addOp "a" "1", CacheOp.clearOp none] (by decide)

/-- Witness for C7: all three construction cases at concrete filesystems. -/
theorem construct_contract_witness :
    FileCache.construct ([] : FS) "/r" = .ok ⟨"/r", joinPath "/r" "cache.json", ⟨"1.0", []⟩⟩ ∧
    FileCache.construct [(joinPath "/r" "cache.json", stringifyCache ⟨"1.0", [⟨"a", "1"⟩]⟩)]
        "/r" = .ok ⟨"/r", joinPath "/r" "cache.json", ⟨"1.0", [⟨"a", "1"⟩]⟩⟩ ∧
    ∃ msg, FileCache.construct [(joinPath "/r" "cache.json", "not json")] "/r" = .error msg := by
  refine ⟨?_, ?_, ?_⟩
  · exact (construct_contract [] "/r").1 rfl
  · exact (construct_contract _ "/r").2.1 _ _ rfl (parse_stringify ⟨"1.0", [⟨"a", "1"⟩]⟩)
  · exact (construct_contract _ "/r").2.2 "not json" rfl rfl

/-- Witness for C8: a matching entry whose backing file is absent. -/
theorem stale_index_get_none_witness :
    FileCache.get ([] : FS) ⟨"/r", "/r/cache.json", ⟨"1.0", [⟨"a", "1"⟩]⟩⟩ "a" "1" = none :=
  stale_index_get_none [] ⟨"/r", "/r/cache.json", ⟨"1.0", [⟨"a", "1"⟩]⟩⟩ "a" "1"
    ⟨⟨"a", "1"⟩, by decide, rfl, rfl⟩ rfl

end Eide
